import Mathlib

/-!
# Verification of the `autoforward` forwarding engine

A shallow embedding of the pure/algorithmic core of the `autoforward`
repository (files `src/forwarding.rs`, `src/hosts.rs`, `src/kubernetes.rs`),
together with theorems settling the specification claims.

Modelling conventions:
* Rust `String` / `&str` become Lean `String`; `str::len()` (a byte count)
  becomes `String.utf8ByteSize`.
* `SystemTime` becomes a `Nat` time stamp (seconds); `Duration::from_secs`
  is plain addition.
* Effectful operations (spawning `kubectl`, HTTP probes) are modelled by
  passing their externally-determined outcomes as explicit parameters
  (oracles), and a panic (`unwrap` on `None`) is a distinguished outcome.
* `hyper::Uri` parsing and the `regex` crate are external libraries; they
  are modelled byte-faithfully for the input shapes the program feeds them
  (absolute `scheme://host[:port][/path]` URIs, the two concrete regexes).
-/

namespace Autoforward

/-! ## Rust `Iterator::max_by` with a `Nat` key

`iter.max_by(|a, b| key(a).cmp(&key(b)))`: returns `none` on an empty
iterator, otherwise some maximal element; when several elements are equally
maximal the **last** one is returned. -/

def maxByKey {α : Type} (key : α → Nat) (l : List α) : Option α :=
  l.foldl
    (fun acc x =>
      match acc with
      | none => some x
      | some a => if key a ≤ key x then some x else some a)
    none

theorem maxByKey_foldl_some {α : Type} (key : α → Nat) (l : List α) (a : α) :
    ∃ m, l.foldl
      (fun acc x =>
        match acc with
        | none => some x
        | some a => if key a ≤ key x then some x else some a)
      (some a) = some m ∧ (m = a ∨ m ∈ l) ∧ key a ≤ key m ∧ ∀ y ∈ l, key y ≤ key m := by
  induction l generalizing a with
  | nil => exact ⟨a, rfl, Or.inl rfl, Nat.le_refl _, by intro y hy; cases hy⟩
  | cons x xs ih =>
    simp only [List.foldl_cons]
    by_cases h : key a ≤ key x
    · simp only [if_pos h]
      obtain ⟨m, hm, hmem, hle, hmax⟩ := ih x
      refine ⟨m, hm, ?_, Nat.le_trans h hle, ?_⟩
      · rcases hmem with rfl | hmem
        · exact Or.inr (List.mem_cons_self _ _)
        · exact Or.inr (List.mem_cons_of_mem _ hmem)
      · intro y hy
        rcases List.mem_cons.mp hy with rfl | hy
        · exact hle
        · exact hmax y hy
    · simp only [if_neg h]
      obtain ⟨m, hm, hmem, hle, hmax⟩ := ih a
      refine ⟨m, hm, ?_, hle, ?_⟩
      · rcases hmem with rfl | hmem
        · exact Or.inl rfl
        · exact Or.inr (List.mem_cons_of_mem _ hmem)
      · intro y hy
        rcases List.mem_cons.mp hy with rfl | hy
        · exact Nat.le_trans (Nat.le_of_not_le h) hle
        · exact hmax y hy

theorem maxByKey_spec {α : Type} (key : α → Nat) (l : List α) (x : α)
    (h : maxByKey key l = some x) : x ∈ l ∧ ∀ y ∈ l, key y ≤ key x := by
  cases l with
  | nil => cases h
  | cons a as =>
    simp only [maxByKey, List.foldl_cons] at h
    obtain ⟨m, hm, hmem, hle, hmax⟩ := maxByKey_foldl_some key as a
    rw [hm] at h
    cases h
    refine ⟨?_, ?_⟩
    · rcases hmem with rfl | hmem
      · exact List.mem_cons_self _ _
      · exact List.mem_cons_of_mem _ hmem
    · intro y hy
      rcases List.mem_cons.mp hy with rfl | hy
      · exact hle
      · exact hmax y hy

theorem maxByKey_eq_none_iff {α : Type} (key : α → Nat) (l : List α) :
    maxByKey key l = none ↔ l = [] := by
  cases l with
  | nil => simp [maxByKey]
  | cons a as =>
    simp only [maxByKey, List.foldl_cons]
    obtain ⟨m, hm, _, _, _⟩ := maxByKey_foldl_some key as a
    rw [hm]
    simp

theorem maxByKey_isSome {α : Type} (key : α → Nat) (l : List α) (h : l ≠ []) :
    (maxByKey key l).isSome := by
  cases he : maxByKey key l with
  | none => exact absurd ((maxByKey_eq_none_iff key l).mp he) h
  | some x => rfl

/-! ## Model of `hyper::Uri` (`http::Uri`) parsing

`Uri::from_str` is modelled for the URI forms the program feeds it:
absolute URIs `scheme://authority[/path]`, origin-form `/path`, and
authority-form strings. A URI with an empty path component reports path
`"/"` (as `http::Uri::path` does for absolute URIs; `""` for a bare
authority). Invalid schemes, empty authorities, and non-numeric or
out-of-range ports are parse errors. -/

structure HttpUri where
  scheme : String
  host : Option String
  port : Option Nat
  path : String
deriving DecidableEq, Repr

def isSchemeHeadChar (c : Char) : Bool := c.isAlpha

def isSchemeTailChar (c : Char) : Bool :=
  c.isAlpha || c.isDigit || c = '+' || c = '-' || c = '.'

/-- Split `l` at the first occurrence of the three characters `"://"`;
returns the parts before and after. -/
def splitSchemeSep : List Char → Option (List Char × List Char)
  | [] => none
  | c :: cs =>
    if c = ':' ∧ cs.take 2 = ['/', '/'] then
      some ([], cs.drop 2)
    else
      match splitSchemeSep cs with
      | some (pre, post) => some (c :: pre, post)
      | none => none

def parseDigitsAux (acc : Nat) : List Char → Option Nat
  | [] => some acc
  | c :: cs =>
    if c.isDigit then parseDigitsAux (acc * 10 + (c.toNat - '0'.toNat)) cs
    else none

/-- Parse a non-empty all-digit character list as a `Nat`. -/
def parseDigits (l : List Char) : Option Nat :=
  match l with
  | [] => none
  | _ => parseDigitsAux 0 l

/-- Split an authority `host[:port]` into its host and optional port.
A present-but-invalid port (empty, non-numeric or above 65535) is an
error, as in `http::Uri`. -/
def parseAuthority (auth : List Char) : Option (String × Option Nat) :=
  if auth = [] then none
  else
    let hostPart := auth.takeWhile (· ≠ ':')
    if hostPart.length = auth.length then
      if hostPart = [] then none else some (String.mk hostPart, none)
    else
      let portPart := auth.drop (hostPart.length + 1)
      match parseDigits portPart with
      | some p => if hostPart = [] ∨ 65535 < p then none else some (String.mk hostPart, some p)
      | none => none

/-- Model of `hyper::Uri::from_str` (see module comment). -/
def uriFromStr (s : String) : Option HttpUri :=
  match splitSchemeSep s.toList with
  | some (schemeChars, rest) =>
    if schemeChars ≠ [] ∧ (schemeChars.all isSchemeTailChar) ∧
        isSchemeHeadChar (schemeChars.headD 'a') then
      let auth := rest.takeWhile (· ≠ '/')
      let pathChars := rest.drop auth.length
      match parseAuthority auth with
      | some (h, p) =>
        some { scheme := String.mk schemeChars, host := some h, port := p,
               path := if pathChars = [] then "/" else String.mk pathChars }
      | none => none
    else none
  | none =>
    match s.toList with
    | [] => none
    | c :: cs =>
      if c = '/' then
        some { scheme := "", host := none, port := none, path := s }
      else if (c :: cs).all (· ≠ '/') then
        match parseAuthority (c :: cs) with
        | some (h, p) => some { scheme := "", host := some h, port := p, path := "" }
        | none => none
      else none

/-! ## Data model (`forwarding.rs`, `kubernetes.rs`) -/

structure ApplicationDescriptor where
  application_name : String
  ingresses : List String
  liveness : Option String
  context : String
  «namespace» : String
deriving DecidableEq, Repr

structure Portforward where
  host : String
  port : Nat
deriving DecidableEq, Repr

/-- `PortforwardDescriptor` without its I/O handles (`port_forward_command`,
`client`, `stdout`), which carry no algorithmic state. -/
structure PortforwardDescriptor where
  hosts : List String
  ttl : Nat
  liveness : Option String
  portforward : Portforward
deriving DecidableEq, Repr

structure State where
  next_update : Nat
  hosts : List ApplicationDescriptor
  port_forwards : List PortforwardDescriptor
deriving DecidableEq, Repr

/-! ## `ApplicationDescriptor::best_ingress`

```rust
(&self.ingresses).into_iter()
    .map(|pf| (Uri::from_str(pf.as_str()), pf))
    .filter(|(uri, _)| uri.is_ok())
    .map(|(uri, ingress)| (uri.unwrap(), ingress))
    .filter(|(uri, _)| uri.host() == Some(host))
    .filter(|(uri, _)| path.starts_with(uri.path()))
    .map(|(_, ingress)| ingress.to_owned())
    .max_by(|a, b| a.len().cmp(&b.len()))
```
`str::starts_with` is a byte-prefix test; on (valid UTF-8) `String`s this
coincides with a character-list prefix test, modelled by `strStartsWith`. -/

/-- Model of Rust `str::starts_with`: byte prefix, i.e. character-list
prefix on valid UTF-8 strings. -/
def strStartsWith (s pre : String) : Bool := pre.toList.isPrefixOf s.toList

def ApplicationDescriptor.best_ingress (d : ApplicationDescriptor)
    (host path : String) : Option String :=
  maxByKey (fun s => s.utf8ByteSize)
    (d.ingresses.filterMap (fun pf =>
      match uriFromStr pf with
      | none => none
      | some uri =>
        if uri.host = some host ∧ strStartsWith path uri.path then some pf else none))

/-- The resolution step of `State::fetch_address`:

```rust
(&self.hosts).into_iter()
    .filter_map(|desc| (desc.best_ingress(host, path).map(|v| (v, desc))))
    .max_by(|(a, _), (b, _)| a.len().cmp(&b.len()))
``` -/
def resolve (descs : List ApplicationDescriptor) (host path : String) :
    Option (String × ApplicationDescriptor) :=
  maxByKey (fun p => p.1.utf8ByteSize)
    (descs.filterMap (fun d => (d.best_ingress host path).map (fun v => (v, d))))

/-- Unfolding of the candidate filter used by `best_ingress`. -/
theorem best_ingress_filter_eq (host path pf x : String) :
    (match uriFromStr pf with
     | none => none
     | some uri =>
       if uri.host = some host ∧ strStartsWith path uri.path then some pf else none) = some x ↔
    (x = pf ∧ ∃ uri, uriFromStr pf = some uri ∧ uri.host = some host ∧
      strStartsWith path uri.path = true) := by
  cases hu : uriFromStr pf with
  | none => simp
  | some uri =>
    by_cases hc : uri.host = some host ∧ strStartsWith path uri.path
    · simp only [if_pos hc]
      constructor
      · intro h
        cases h
        exact ⟨rfl, uri, rfl, hc.1, hc.2⟩
      · intro ⟨h, _⟩
        exact h ▸ rfl
    · simp only [if_neg hc]
      constructor
      · intro h; cases h
      · intro ⟨_, uri', hu', hh, hp⟩
        cases hu'
        exact absurd ⟨hh, hp⟩ hc

/-- Characterization of `best_ingress`: the returned ingress is a candidate
(it parses, its host matches exactly, its path is a prefix of the request
path) of maximal ingress-string byte length. -/
theorem best_ingress_spec (d : ApplicationDescriptor) (host path ing : String)
    (h : d.best_ingress host path = some ing) :
    ing ∈ d.ingresses ∧
    (∃ uri, uriFromStr ing = some uri ∧ uri.host = some host ∧
      strStartsWith path uri.path = true) ∧
    (∀ ing' ∈ d.ingresses, ∀ uri', uriFromStr ing' = some uri' →
      uri'.host = some host → strStartsWith path uri'.path = true →
      ing'.utf8ByteSize ≤ ing.utf8ByteSize) := by
  obtain ⟨hmem, hmax⟩ := maxByKey_spec _ _ _ h
  obtain ⟨pf, hpf, hf⟩ := List.mem_filterMap.mp hmem
  obtain ⟨rfl, huri⟩ := (best_ingress_filter_eq host path pf ing).mp hf
  refine ⟨hpf, huri, ?_⟩
  intro ing' hmem' uri' hu' hh' hp'
  exact hmax ing' (List.mem_filterMap.mpr
    ⟨ing', hmem', (best_ingress_filter_eq host path ing' ing').mpr ⟨rfl, uri', hu', hh', hp'⟩⟩)

/-- `best_ingress` returns some ingress whenever a candidate exists. -/
theorem best_ingress_isSome (d : ApplicationDescriptor) (host path : String)
    (h : ∃ ing ∈ d.ingresses, ∃ uri, uriFromStr ing = some uri ∧
      uri.host = some host ∧ strStartsWith path uri.path = true) :
    (d.best_ingress host path).isSome := by
  obtain ⟨ing, hmem, uri, hu, hh, hp⟩ := h
  apply maxByKey_isSome
  apply List.ne_nil_of_mem (a := ing)
  exact List.mem_filterMap.mpr
    ⟨ing, hmem, (best_ingress_filter_eq host path ing ing).mpr ⟨rfl, uri, hu, hh, hp⟩⟩

/-- The descriptor of §8 test invariant 1. -/
def exDescMatch : ApplicationDescriptor :=
  ⟨"app", ["http://h/", "http://h/api", "http://h/api/v2"], none, "ctx", "ns"⟩

/-- A descriptor exhibiting the divergence between longest URI-path length
and longest ingress-string length: with a port in the authority, the longer
ingress string carries the shorter URI path. -/
def exDescPort : ApplicationDescriptor :=
  ⟨"app", ["http://h:80/ab", "http://h/abcd"], none, "ctx", "ns"⟩

/-- C1: the claim states `best_ingress` returns the candidate with the
longest **URI-path** length; the code (`forwarding.rs` line 218) takes the
maximum of the full ingress-string byte length instead. On the descriptor
`["http://h:80/ab", "http://h/abcd"]` with request `("h", "/abcd")`, both
ingresses are candidates, `"http://h/abcd"` has the strictly longer URI
path (5 bytes vs 2... in fact `/abcd` vs `/ab`), yet the code returns
`"http://h:80/ab"` because its full string is longer (14 vs 13 bytes). -/
theorem C1_counterexample :
    exDescPort.best_ingress "h" "/abcd" = some "http://h:80/ab" ∧
    "http://h/abcd" ∈ exDescPort.ingresses ∧
    uriFromStr "http://h/abcd" = some ⟨"http", some "h", none, "/abcd"⟩ ∧
    strStartsWith "/abcd" "/abcd" = true ∧
    uriFromStr "http://h:80/ab" = some ⟨"http", some "h", some 80, "/ab"⟩ ∧
    ("/ab" : String).utf8ByteSize < ("/abcd" : String).utf8ByteSize := by
  decide

/-- C1 (amended): for every descriptor and every (host, path),
`best_ingress` keeps only ingresses that parse as URIs, whose URI host
equals `host` exactly, and whose URI path is a byte-prefix of `path`, and
among those returns an ingress with the longest **ingress-string byte
length** (ties broken arbitrarily); the four concrete examples of the
claim hold as stated. -/
theorem C1_best_ingress :
    (∀ (d : ApplicationDescriptor) (host path ing : String),
      d.best_ingress host path = some ing →
      ing ∈ d.ingresses ∧
      (∃ uri, uriFromStr ing = some uri ∧ uri.host = some host ∧
        strStartsWith path uri.path = true) ∧
      (∀ ing' ∈ d.ingresses, ∀ uri', uriFromStr ing' = some uri' →
        uri'.host = some host → strStartsWith path uri'.path = true →
        ing'.utf8ByteSize ≤ ing.utf8ByteSize)) ∧
    exDescMatch.best_ingress "h" "/api/v2/x" = some "http://h/api/v2" ∧
    exDescMatch.best_ingress "h" "/api/other" = some "http://h/api" ∧
    exDescMatch.best_ingress "h" "/other" = some "http://h/" ∧
    exDescMatch.best_ingress "other" "/" = none := by
  refine ⟨best_ingress_spec, by decide, by decide, by decide, by decide⟩

/-- Witness for `C1_best_ingress` at a concrete input. -/
theorem C1_best_ingress_witness :
    exDescMatch.best_ingress "h" "/api/v2/x" = some "http://h/api/v2" ∧
    "http://h/api/v2" ∈ exDescMatch.ingresses := by
  refine ⟨by decide, ?_⟩
  exact (C1_best_ingress.1 exDescMatch "h" "/api/v2/x" "http://h/api/v2" (by decide)).1

/-- Descriptors of §8 test invariant 2 (cross-descriptor tie-break). -/
def exDescResA : ApplicationDescriptor := ⟨"a", ["http://h/x"], none, "ctx", "ns"⟩

def exDescResB : ApplicationDescriptor := ⟨"b", ["http://h/xyz"], none, "ctx", "ns"⟩

/-- C2: the resolution step of `fetch_address` computes `best_ingress` for
each descriptor, discards descriptors with no match, and among the
surviving (ingress, descriptor) pairs selects one whose ingress string has
the longest byte length (ties arbitrary); in particular, for two
descriptors whose best ingresses are `"http://h/x"` and `"http://h/xyz"`,
the latter wins. -/
theorem resolve_spec (descs : List ApplicationDescriptor) (host path ing : String)
    (d : ApplicationDescriptor) (h : resolve descs host path = some (ing, d)) :
    d ∈ descs ∧ d.best_ingress host path = some ing ∧
    (∀ d' ∈ descs, ∀ ing', d'.best_ingress host path = some ing' →
      ing'.utf8ByteSize ≤ ing.utf8ByteSize) := by
  obtain ⟨hmem, hmax⟩ := maxByKey_spec _ _ _ h
  obtain ⟨d', hd', hf⟩ := List.mem_filterMap.mp hmem
  obtain ⟨ing', hbest, heq⟩ := Option.map_eq_some'.mp hf
  obtain ⟨h1, h2⟩ := Prod.mk.injEq .. ▸ heq
  subst h2
  refine ⟨hd', h1 ▸ hbest, ?_⟩
  intro d'' hd'' ing'' hbest''
  exact h1 ▸ hmax (ing'', d'')
    (List.mem_filterMap.mpr ⟨d'', hd'', by rw [hbest'']; rfl⟩)

theorem resolve_isSome (descs : List ApplicationDescriptor) (host path : String)
    (h : ∃ d ∈ descs, (d.best_ingress host path).isSome) :
    (resolve descs host path).isSome := by
  obtain ⟨d, hd, hsome⟩ := h
  obtain ⟨ing, hing⟩ := Option.isSome_iff_exists.mp hsome
  apply maxByKey_isSome
  apply List.ne_nil_of_mem (a := (ing, d))
  exact List.mem_filterMap.mpr ⟨d, hd, by rw [hing]; rfl⟩

theorem C2_resolve :
    (∀ (descs : List ApplicationDescriptor) (host path ing : String)
       (d : ApplicationDescriptor),
      resolve descs host path = some (ing, d) →
      d ∈ descs ∧ d.best_ingress host path = some ing ∧
      (∀ d' ∈ descs, ∀ ing', d'.best_ingress host path = some ing' →
        ing'.utf8ByteSize ≤ ing.utf8ByteSize)) ∧
    (∀ (descs : List ApplicationDescriptor) (host path : String),
      (∃ d ∈ descs, (d.best_ingress host path).isSome) →
      (resolve descs host path).isSome) ∧
    exDescResA.best_ingress "h" "/xyz" = some "http://h/x" ∧
    exDescResB.best_ingress "h" "/xyz" = some "http://h/xyz" ∧
    resolve [exDescResA, exDescResB] "h" "/xyz" = some ("http://h/xyz", exDescResB) :=
  ⟨resolve_spec, resolve_isSome, by decide, by decide, by decide⟩

/-- Witness for `C2_resolve` at a concrete input. -/
theorem C2_resolve_witness :
    resolve [exDescResA, exDescResB] "h" "/xyz" = some ("http://h/xyz", exDescResB) ∧
    exDescResB ∈ [exDescResA, exDescResB] := by
  refine ⟨by decide, ?_⟩
  exact (C2_resolve.1 [exDescResA, exDescResB] "h" "/xyz" "http://h/xyz" exDescResB
    (by decide)).1

/-! ## Tunnel lifecycle (`PortforwardDescriptor`)

The HTTP liveness probe (`self.client.get(uri)` plus the 2xx check) is an
external effect; it is modelled by an oracle `probe : String → Bool` that
receives the composed self-test URL and returns whether the GET succeeded
with a 2xx status. -/

def PortforwardDescriptor.create_ttl (now : Nat) : Nat := now + 60

def PortforwardDescriptor.update_ttl (pf : PortforwardDescriptor) (now : Nat) :
    PortforwardDescriptor :=
  { pf with ttl := PortforwardDescriptor.create_ttl now }

def PortforwardDescriptor.contains_ingress (pf : PortforwardDescriptor)
    (ingress : String) : Bool :=
  pf.hosts.contains ingress

/-- `PortforwardDescriptor::check_selftest`: `false` when `liveness` is
absent; otherwise strip one leading `/` and probe
`http://<host>:<port>/<path>`. -/
def PortforwardDescriptor.check_selftest (pf : PortforwardDescriptor)
    (probe : String → Bool) : Bool :=
  match pf.liveness with
  | some liveness =>
    let path := if strStartsWith liveness "/" then liveness.drop 1 else liveness
    probe ("http://" ++ pf.portforward.host ++ ":" ++
      toString pf.portforward.port ++ "/" ++ path)
  | none => false

/-- `PortforwardDescriptor::tick`: `false` when the self-test fails,
otherwise `ttl > now`. -/
def PortforwardDescriptor.tick (pf : PortforwardDescriptor)
    (probe : String → Bool) (now : Nat) : Bool :=
  if ¬ pf.check_selftest probe then false
  else decide (now < pf.ttl)

/-- The `while !self.port_forwards.is_empty()` loop of `State::tick`,
already reindexed: the vector is popped from the back, so the loop body
runs over the reversed pool, pushing survivors onto `newPf` and closed
tunnels onto `closed` (in processing order). -/
def tickLoop (keep : PortforwardDescriptor → Bool) :
    List PortforwardDescriptor → List PortforwardDescriptor →
    List PortforwardDescriptor →
    List PortforwardDescriptor × List PortforwardDescriptor
  | [], newPf, closed => (newPf, closed)
  | pf :: rest, newPf, closed =>
    if keep pf then tickLoop keep rest (newPf ++ [pf]) closed
    else tickLoop keep rest newPf (closed ++ [pf])

/-- `State::tick`, returning the updated state together with the list of
tunnels on which `close()` was run, in closing order. -/
def State.tick (st : State) (probe : String → Bool) (now : Nat) :
    State × List PortforwardDescriptor :=
  let next := if st.next_update < now then now + 120 else st.next_update
  let r := tickLoop (fun pf => pf.tick probe now) st.port_forwards.reverse [] []
  ({ st with next_update := next, port_forwards := r.1 }, r.2)

theorem tickLoop_eq (keep : PortforwardDescriptor → Bool)
    (l acc1 acc2 : List PortforwardDescriptor) :
    tickLoop keep l acc1 acc2 =
      (acc1 ++ l.filter keep, acc2 ++ l.filter (fun pf => ¬ keep pf)) := by
  induction l generalizing acc1 acc2 with
  | nil => simp [tickLoop]
  | cons pf rest ih =>
    by_cases h : keep pf
    · simp [tickLoop, h, ih, List.filter_cons]
    · simp [tickLoop, h, ih, List.filter_cons]

theorem state_tick_port_forwards (st : State) (probe : String → Bool) (now : Nat) :
    (st.tick probe now).1.port_forwards =
      st.port_forwards.reverse.filter (fun pf => pf.tick probe now) := by
  simp [State.tick, tickLoop_eq]

theorem state_tick_closed (st : State) (probe : String → Bool) (now : Nat) :
    (st.tick probe now).2 =
      st.port_forwards.reverse.filter (fun pf => ¬ pf.tick probe now) := by
  simp [State.tick, tickLoop_eq]

/-! ## `State::fetch_address` -/

/-- The scan
`(&mut self.port_forwards).into_iter().find(|v| v.contains_ingress(&ingress))`
followed by `desc.update_ttl()`: returns the found tunnel's `Portforward`
together with the pool in which just that (first matching) tunnel had its
TTL refreshed. -/
def refreshFirst (ingress : String) (now : Nat) :
    List PortforwardDescriptor → Option (Portforward × List PortforwardDescriptor)
  | [] => none
  | pf :: rest =>
    if pf.contains_ingress ingress then
      some (pf.portforward, pf.update_ttl now :: rest)
    else
      (refreshFirst ingress now rest).map (fun r => (r.1, pf :: r.2))

/-- Distinguishable outcomes of one `fetch_address` call. `.reused` and
`.noRoute` involve no subprocess spawn; `.opened` / `.openFailed` are the
two results of exactly one `kubectl port-forward` spawn attempt. -/
inductive FetchResult where
  | noRoute
  | reused (pf : Portforward)
  | opened (pf : Portforward)
  | openFailed
deriving DecidableEq, Repr

/-- Second half of `State::fetch_address` (after the `resolve` step found
the winning `(ingress, app)`): reuse the first pool tunnel containing
`ingress`, otherwise open a new tunnel via the `openOutcome` oracle. -/
def fetchWithWinner (st : State) (ingress : String) (app : ApplicationDescriptor)
    (now : Nat) (openOutcome : Except Unit Portforward) : FetchResult × State :=
  match refreshFirst ingress now st.port_forwards with
  | some (pfv, pfs) => (.reused pfv, { st with port_forwards := pfs })
  | none =>
    match openOutcome with
    | .error _ => (.openFailed, st)
    | .ok pfv =>
      (.opened pfv,
       { st with port_forwards := st.port_forwards ++
          [{ hosts := app.ingresses, ttl := PortforwardDescriptor.create_ttl now,
             liveness := app.liveness, portforward := pfv }] })

/-- `State::fetch_address`. `openOutcome` is the externally-determined
result of `PortforwardDescriptor::from_app` (spawn `kubectl`, read and
parse the first stdout line): `.ok` carries the parsed `Portforward`,
`.error` a propagated I/O failure. -/
def State.fetch_address (st : State) (host path : String) (now : Nat)
    (openOutcome : Except Unit Portforward) : FetchResult × State :=
  match resolve st.hosts host path with
  | none => (.noRoute, st)
  | some (ingress, app) => fetchWithWinner st ingress app now openOutcome

theorem fetch_address_of_resolve_none (st : State) (host path : String) (now : Nat)
    (o : Except Unit Portforward) (h : resolve st.hosts host path = none) :
    st.fetch_address host path now o = (.noRoute, st) := by
  unfold State.fetch_address
  rw [h]

theorem fetch_address_of_resolve_some (st : State) (host path : String) (now : Nat)
    (o : Except Unit Portforward) (ing : String) (app : ApplicationDescriptor)
    (h : resolve st.hosts host path = some (ing, app)) :
    st.fetch_address host path now o = fetchWithWinner st ing app now o := by
  unfold State.fetch_address
  rw [h]

theorem fetchWithWinner_of_found (st : State) (ing : String)
    (app : ApplicationDescriptor) (now : Nat) (o : Except Unit Portforward)
    (pfv : Portforward) (pfs : List PortforwardDescriptor)
    (h : refreshFirst ing now st.port_forwards = some (pfv, pfs)) :
    fetchWithWinner st ing app now o = (.reused pfv, { st with port_forwards := pfs }) := by
  unfold fetchWithWinner
  rw [h]

theorem fetchWithWinner_of_open (st : State) (ing : String)
    (app : ApplicationDescriptor) (now : Nat) (pfv : Portforward)
    (h : refreshFirst ing now st.port_forwards = none) :
    fetchWithWinner st ing app now (.ok pfv) =
      (.opened pfv,
       { st with port_forwards := st.port_forwards ++
          [{ hosts := app.ingresses, ttl := PortforwardDescriptor.create_ttl now,
             liveness := app.liveness, portforward := pfv }] }) := by
  unfold fetchWithWinner
  rw [h]

theorem fetchWithWinner_of_open_error (st : State) (ing : String)
    (app : ApplicationDescriptor) (now : Nat) (e : Unit)
    (h : refreshFirst ing now st.port_forwards = none) :
    fetchWithWinner st ing app now (.error e) = (.openFailed, st) := by
  unfold fetchWithWinner
  rw [h]

theorem refreshFirst_eq_none_iff (ingress : String) (now : Nat)
    (l : List PortforwardDescriptor) :
    refreshFirst ingress now l = none ↔
      ∀ pf ∈ l, pf.contains_ingress ingress = false := by
  induction l with
  | nil => simp [refreshFirst]
  | cons pf rest ih =>
    by_cases h : pf.contains_ingress ingress
    · simp [refreshFirst, h]
    · simp only [refreshFirst, if_neg h, Option.map_eq_none', ih, List.mem_cons]
      constructor
      · intro hall q hq
        rcases hq with rfl | hq
        · exact Bool.eq_false_iff.mpr h
        · exact hall q hq
      · intro hall q hq
        exact hall q (Or.inr hq)

theorem refreshFirst_split (ingress : String) (now : Nat)
    (l1 l2 : List PortforwardDescriptor) (pf : PortforwardDescriptor)
    (h1 : ∀ q ∈ l1, q.contains_ingress ingress = false)
    (h2 : pf.contains_ingress ingress = true) :
    refreshFirst ingress now (l1 ++ pf :: l2) =
      some (pf.portforward, l1 ++ pf.update_ttl now :: l2) := by
  induction l1 with
  | nil => simp [refreshFirst, h2]
  | cons q l1 ih =>
    have hq : q.contains_ingress ingress = false := h1 q (List.mem_cons_self _ _)
    have ih' := ih (fun r hr => h1 r (List.mem_cons_of_mem _ hr))
    simp only [List.cons_append, refreshFirst, hq, Bool.false_eq_true, if_false]
    rw [show l1.append (pf :: l2) = l1 ++ pf :: l2 from rfl, ih', Option.map_some']

/-- A pool tunnel that will pass a (stubbed 2xx) probe and whose TTL has
not yet expired at time 100. -/
def pfAlive : PortforwardDescriptor :=
  ⟨["http://h/"], 200, some "/isalive", ⟨"127.0.0.1", 5000⟩⟩

/-- A pool tunnel whose TTL (50) has expired at time 100. -/
def pfDead : PortforwardDescriptor :=
  ⟨["http://h2/"], 50, some "/isalive", ⟨"127.0.0.1", 5001⟩⟩

def stTickEx : State := ⟨0, [], [pfAlive, pfDead]⟩

/-- C4: after `State::tick()` the pool contains exactly those tunnels whose
per-tunnel `tick()` returned `true` (the serial iteration is in reverse
insertion order), every tunnel whose `tick()` returned `false` is in the
closed list exactly as often as it was in the pool (closed exactly once per
pool entry), and no closed tunnel remains in the pool. -/
theorem C4_state_tick_eviction :
    ∀ (st : State) (probe : String → Bool) (now : Nat),
      (st.tick probe now).1.port_forwards =
        st.port_forwards.reverse.filter (fun pf => pf.tick probe now) ∧
      (st.tick probe now).2 =
        st.port_forwards.reverse.filter (fun pf => ¬ pf.tick probe now) ∧
      (∀ pf, pf ∈ (st.tick probe now).1.port_forwards ↔
        pf ∈ st.port_forwards ∧ pf.tick probe now = true) ∧
      (∀ pf, pf ∈ (st.tick probe now).2 ↔
        pf ∈ st.port_forwards ∧ pf.tick probe now = false) ∧
      (∀ pf, ((st.tick probe now).2).count pf =
        if pf.tick probe now then 0 else st.port_forwards.count pf) ∧
      (∀ pf ∈ (st.tick probe now).2, pf ∉ (st.tick probe now).1.port_forwards) := by
  intro st probe now
  refine ⟨state_tick_port_forwards st probe now, state_tick_closed st probe now, ?_, ?_, ?_, ?_⟩
  · intro pf
    rw [state_tick_port_forwards]
    simp [List.mem_filter]
  · intro pf
    rw [state_tick_closed]
    simp [List.mem_filter]
  · intro pf
    rw [state_tick_closed]
    by_cases h : pf.tick probe now
    · rw [if_pos h]
      rw [List.count_eq_zero]
      intro hmem
      have := (List.mem_filter.mp hmem).2
      simp [h] at this
    · rw [if_neg h]
      rw [← List.count_reverse pf st.port_forwards]
      apply List.count_filter
      simp [h]
  · intro pf hclosed hkept
    rw [state_tick_closed] at hclosed
    rw [state_tick_port_forwards] at hkept
    have h1 := (List.mem_filter.mp hclosed).2
    have h2 := (List.mem_filter.mp hkept).2
    simp at h1
    simp [h1] at h2

/-- Witness for `C4_state_tick_eviction` at a concrete pool. -/
theorem C4_state_tick_eviction_witness :
    (stTickEx.tick (fun _ => true) 100).1.port_forwards = [pfAlive] ∧
    (stTickEx.tick (fun _ => true) 100).2 = [pfDead] := by
  have h := C4_state_tick_eviction stTickEx (fun _ => true) 100
  exact ⟨h.1.trans (by decide), h.2.1.trans (by decide)⟩

/-- A tunnel descriptor with no declared liveness path. -/
def pfNoLiveness : PortforwardDescriptor :=
  ⟨["http://h3/"], 1000, none, ⟨"127.0.0.1", 5002⟩⟩

def stNoLiveness : State := ⟨0, [], [pfNoLiveness]⟩

/-- C5: the per-tunnel `tick()` returns `false` iff the self-test fails or
`ttl ≤ now`; `check_selftest` returns `false` whenever `liveness` is
absent; hence a tunnel without a liveness path fails every `tick()` and is
evicted from the pool by the first maintenance pass. -/
theorem C5_tick_conditions :
    (∀ (pf : PortforwardDescriptor) (probe : String → Bool) (now : Nat),
      pf.tick probe now = false ↔
        (pf.check_selftest probe = false ∨ pf.ttl ≤ now)) ∧
    (∀ (pf : PortforwardDescriptor) (probe : String → Bool),
      pf.liveness = none → pf.check_selftest probe = false) ∧
    (∀ (pf : PortforwardDescriptor) (probe : String → Bool) (now : Nat),
      pf.liveness = none → pf.tick probe now = false) ∧
    (∀ (st : State) (probe : String → Bool) (now : Nat)
       (pf : PortforwardDescriptor), pf.liveness = none →
      pf ∉ (st.tick probe now).1.port_forwards) := by
  have hself : ∀ (pf : PortforwardDescriptor) (probe : String → Bool),
      pf.liveness = none → pf.check_selftest probe = false := by
    intro pf probe h
    unfold PortforwardDescriptor.check_selftest
    rw [h]
  have htick : ∀ (pf : PortforwardDescriptor) (probe : String → Bool) (now : Nat),
      pf.tick probe now = false ↔
        (pf.check_selftest probe = false ∨ pf.ttl ≤ now) := by
    intro pf probe now
    cases hs : pf.check_selftest probe with
    | false =>
      simp [PortforwardDescriptor.tick, hs]
    | true =>
      simp [PortforwardDescriptor.tick, hs]
      try omega
  have htickNone : ∀ (pf : PortforwardDescriptor) (probe : String → Bool) (now : Nat),
      pf.liveness = none → pf.tick probe now = false := by
    intro pf probe now h
    exact (htick pf probe now).mpr (Or.inl (hself pf probe h))
  refine ⟨htick, hself, htickNone, ?_⟩
  intro st probe now pf h hmem
  rw [state_tick_port_forwards] at hmem
  have := (List.mem_filter.mp hmem).2
  rw [htickNone pf probe now h] at this
  cases this

/-- Witness for `C5_tick_conditions` at a concrete tunnel. -/
theorem C5_tick_conditions_witness :
    pfNoLiveness.liveness = none ∧
    pfNoLiveness.check_selftest (fun _ => true) = false ∧
    pfNoLiveness.tick (fun _ => true) 0 = false ∧
    pfNoLiveness ∉ (stNoLiveness.tick (fun _ => true) 0).1.port_forwards :=
  ⟨rfl, C5_tick_conditions.2.1 pfNoLiveness (fun _ => true) rfl,
    C5_tick_conditions.2.2.1 pfNoLiveness (fun _ => true) 0 rfl,
    C5_tick_conditions.2.2.2 stNoLiveness (fun _ => true) 0 pfNoLiveness rfl⟩

/-- C3: when `resolve` has a winner `(ingress, app)`: (reuse) if the pool,
split as `l1 ++ pf :: l2` with `pf` the first tunnel whose `hosts` snapshot
contains `ingress`, has such a tunnel, then `fetch_address` returns
`.reused` with a clone of `pf`'s existing `Portforward`, refreshes exactly
that tunnel's TTL to `now + 60`, and appends nothing (no spawn: the result
is `.reused`); (open) only when no pool tunnel contains `ingress` does it
spawn, appending the freshly opened tunnel; (second call) after a call
returns `.opened pf`, a second call for the same (host, path) returns
`.reused` with the same `Portforward` and leaves the pool size unchanged. -/
theorem C3_fetch_address_reuse :
    (∀ (st : State) (host path : String) (now : Nat)
       (o : Except Unit Portforward) (ing : String) (app : ApplicationDescriptor)
       (l1 l2 : List PortforwardDescriptor) (pf : PortforwardDescriptor),
      resolve st.hosts host path = some (ing, app) →
      st.port_forwards = l1 ++ pf :: l2 →
      (∀ q ∈ l1, q.contains_ingress ing = false) →
      pf.contains_ingress ing = true →
      st.fetch_address host path now o =
        (.reused pf.portforward,
         { st with port_forwards := l1 ++ pf.update_ttl now :: l2 }) ∧
      (pf.update_ttl now).ttl = now + 60 ∧
      (l1 ++ pf.update_ttl now :: l2).length = st.port_forwards.length) ∧
    (∀ (st : State) (host path : String) (now : Nat) (pfv : Portforward)
       (ing : String) (app : ApplicationDescriptor),
      resolve st.hosts host path = some (ing, app) →
      (∀ q ∈ st.port_forwards, q.contains_ingress ing = false) →
      st.fetch_address host path now (.ok pfv) =
        (.opened pfv,
         { st with port_forwards := st.port_forwards ++
            [{ hosts := app.ingresses, ttl := now + 60,
               liveness := app.liveness, portforward := pfv }] })) ∧
    (∀ (st : State) (host path : String) (now : Nat)
       (o : Except Unit Portforward) (pfv : Portforward) (st' : State)
       (now' : Nat) (o' : Except Unit Portforward),
      st.fetch_address host path now o = (.opened pfv, st') →
      ∃ pfs, st'.fetch_address host path now' o' =
          (.reused pfv, { st' with port_forwards := pfs }) ∧
        pfs.length = st'.port_forwards.length) := by
  have hreuse : ∀ (st : State) (host path : String) (now : Nat)
       (o : Except Unit Portforward) (ing : String) (app : ApplicationDescriptor)
       (l1 l2 : List PortforwardDescriptor) (pf : PortforwardDescriptor),
      resolve st.hosts host path = some (ing, app) →
      st.port_forwards = l1 ++ pf :: l2 →
      (∀ q ∈ l1, q.contains_ingress ing = false) →
      pf.contains_ingress ing = true →
      st.fetch_address host path now o =
        (.reused pf.portforward,
         { st with port_forwards := l1 ++ pf.update_ttl now :: l2 }) := by
    intro st host path now o ing app l1 l2 pf hres hpool h1 h2
    rw [fetch_address_of_resolve_some st host path now o ing app hres]
    apply fetchWithWinner_of_found
    rw [hpool]
    exact refreshFirst_split ing now l1 l2 pf h1 h2
  have hopen : ∀ (st : State) (host path : String) (now : Nat) (pfv : Portforward)
       (ing : String) (app : ApplicationDescriptor),
      resolve st.hosts host path = some (ing, app) →
      (∀ q ∈ st.port_forwards, q.contains_ingress ing = false) →
      st.fetch_address host path now (.ok pfv) =
        (.opened pfv,
         { st with port_forwards := st.port_forwards ++
            [{ hosts := app.ingresses, ttl := now + 60,
               liveness := app.liveness, portforward := pfv }] }) := by
    intro st host path now pfv ing app hres hnone
    rw [fetch_address_of_resolve_some st host path now (.ok pfv) ing app hres]
    exact fetchWithWinner_of_open st ing app now pfv
      ((refreshFirst_eq_none_iff ing now st.port_forwards).mpr hnone)
  refine ⟨fun st host path now o ing app l1 l2 pf hres hpool h1 h2 =>
      ⟨hreuse st host path now o ing app l1 l2 pf hres hpool h1 h2, rfl, by
        rw [hpool]; simp⟩,
    hopen, ?_⟩
  intro st host path now o pfv st' now' o' h
  cases hres : resolve st.hosts host path with
  | none =>
    rw [fetch_address_of_resolve_none st host path now o hres] at h
    cases h
  | some arg =>
    obtain ⟨ing, app⟩ := arg
    rw [fetch_address_of_resolve_some st host path now o ing app hres] at h
    cases hrf : refreshFirst ing now st.port_forwards with
    | some p =>
      rw [fetchWithWinner_of_found st ing app now o p.1 p.2 (by rw [hrf])] at h
      cases h
    | none =>
      cases o with
      | error e =>
        rw [fetchWithWinner_of_open_error st ing app now e hrf] at h
        cases h
      | ok pfv' =>
        rw [fetchWithWinner_of_open st ing app now pfv' hrf] at h
        obtain ⟨h1, h2⟩ := Prod.mk.injEq .. ▸ h
        cases h1
        have hing : ing ∈ app.ingresses := by
          have hbest := (resolve_spec st.hosts host path ing app hres).2.1
          exact (best_ingress_spec app host path ing hbest).1
        have hcontains : PortforwardDescriptor.contains_ingress
            { hosts := app.ingresses, ttl := PortforwardDescriptor.create_ttl now,
              liveness := app.liveness, portforward := pfv } ing = true := by
          unfold PortforwardDescriptor.contains_ingress
          exact List.elem_iff.mpr hing
        have hnone := (refreshFirst_eq_none_iff ing now st.port_forwards).mp hrf
        have hres' : resolve st'.hosts host path = some (ing, app) := by
          rw [← h2]
          exact hres
        have hpool' : st'.port_forwards = st.port_forwards ++
            ({ hosts := app.ingresses, ttl := PortforwardDescriptor.create_ttl now,
               liveness := app.liveness, portforward := pfv } :
              PortforwardDescriptor) :: [] := by
          rw [← h2]
        refine ⟨st.port_forwards ++
          (PortforwardDescriptor.update_ttl
            { hosts := app.ingresses, ttl := PortforwardDescriptor.create_ttl now,
              liveness := app.liveness, portforward := pfv } now') :: [], ?_, by
            rw [hpool']
            simp⟩
        rw [fetch_address_of_resolve_some st' host path now' o' ing app hres']
        apply fetchWithWinner_of_found
        rw [hpool']
        exact refreshFirst_split ing now' st.port_forwards []
          { hosts := app.ingresses, ttl := PortforwardDescriptor.create_ttl now,
            liveness := app.liveness, portforward := pfv } hnone hcontains

/-- The state before the first `fetch_address` call of the witness. -/
def stFetch0 : State := ⟨0, [exDescResA], []⟩

/-- Witness for `C3_fetch_address_reuse`: a first call opens a tunnel, a
second call for the same (host, path) reuses it. -/
theorem C3_fetch_address_reuse_witness :
    (stFetch0.fetch_address "h" "/x" 100 (.ok ⟨"127.0.0.1", 5000⟩)).1 =
      .opened ⟨"127.0.0.1", 5000⟩ ∧
    ((stFetch0.fetch_address "h" "/x" 100 (.ok ⟨"127.0.0.1", 5000⟩)).2.fetch_address
        "h" "/x" 130 (.ok ⟨"127.0.0.1", 6000⟩)).1 =
      .reused ⟨"127.0.0.1", 5000⟩ := by
  refine ⟨by decide, ?_⟩
  obtain ⟨pfs, heq, _⟩ := C3_fetch_address_reuse.2.2 stFetch0 "h" "/x" 100
    (.ok ⟨"127.0.0.1", 5000⟩) ⟨"127.0.0.1", 5000⟩
    (stFetch0.fetch_address "h" "/x" 100 (.ok ⟨"127.0.0.1", 5000⟩)).2 130
    (.ok ⟨"127.0.0.1", 6000⟩) (by decide)
  rw [heq]

/-! ## Tunnel opening: parsing the first `kubectl` stdout line

`PortforwardDescriptor::from_app` matches the first stdout line against
`Forwarding from (.+):(\d{2,5}) -> \d{2,5}` (unanchored search,
leftmost-first with greedy quantifiers) and then `unwrap`s the captures:
a non-matching line is a **panic**, not an error value. The regex is
modelled by a backtracking matcher specialised to this pattern. -/

/-- Regex `\d` on the ASCII digit strings this pattern can capture. -/
def isDigitChar (c : Char) : Bool := 48 ≤ c.toNat && c.toNat ≤ 57

/-- `captures[2].parse::<usize>()` on an all-digit capture. -/
def natOfDigits (l : List Char) : Nat :=
  l.foldl (fun acc c => 10 * acc + (c.toNat - 48)) 0

/-- The `" -> \d{2,5}"` tail of the pattern: a match needs `" -> "` and
then at least two digits (the trailing text is unconstrained). -/
def matchArrowTail (l : List Char) : Bool :=
  match l with
  | ' ' :: '-' :: '>' :: ' ' :: d1 :: d2 :: _ => isDigitChar d1 && isDigitChar d2
  | _ => false

/-- Greedy `(\d{2,5}) -> \d{2,5}` at the start of `tail`: try a port
capture of length `n`, then `n-1`, ..., down to 2. -/
def tryPortDigits (tail : List Char) : Nat → Option (List Char)
  | 0 => none
  | n + 1 =>
    let d := tail.take (n + 1)
    if 2 ≤ n + 1 ∧ d.length = n + 1 ∧ d.all isDigitChar ∧ matchArrowTail (tail.drop (n + 1)) then
      some d
    else tryPortDigits tail n

/-- Greedy `(.+):` at the start of `rest`: try host captures of length
`k`, `k-1`, ..., 1, each followed by `:` and a matching port part.
Returns (host capture, port capture). -/
def tryHostSplit (rest : List Char) : Nat → Option (List Char × List Char)
  | 0 => none
  | k + 1 =>
    if rest.get? (k + 1) = some ':' ∧ (rest.take (k + 1)).all (fun c => c ≠ '\n') then
      match tryPortDigits (rest.drop (k + 2)) 5 with
      | some d => some (rest.take (k + 1), d)
      | none => tryHostSplit rest k
    else tryHostSplit rest k

def forwardLit : List Char := "Forwarding from ".toList

/-- Unanchored leftmost search: at each position where the literal
`"Forwarding from "` occurs, try the backtracking match of the remainder;
otherwise advance one character. -/
def searchForwardLine : List Char → Option (List Char × List Char)
  | [] => none
  | c :: cs =>
    if forwardLit.isPrefixOf (c :: cs) then
      match tryHostSplit ((c :: cs).drop forwardLit.length)
          ((c :: cs).drop forwardLit.length).length with
      | some r => some r
      | none => searchForwardLine cs
    else searchForwardLine cs

/-- Outcome of the parse step of `PortforwardDescriptor::from_app` on the
child's first stdout line. -/
inductive OpenOutcome where
  | panicked
  | ok (pf : Portforward)
deriving DecidableEq, Repr

/-- `regex.captures(line).unwrap()` followed by
`host = captures[1]`, `port = captures[2].parse().unwrap()`:
a non-matching line panics. -/
def from_app_parse (line : String) : OpenOutcome :=
  match searchForwardLine line.toList with
  | some (h, d) => .ok ⟨String.mk h, natOfDigits d⟩
  | none => .panicked

theorem tryPortDigits_spec (tail : List Char) :
    ∀ (n : Nat) (d : List Char), tryPortDigits tail n = some d →
      d.length ≤ n ∧ d.all isDigitChar = true := by
  intro n
  induction n with
  | zero => intro d h; cases h
  | succ n ih =>
    intro d h
    rw [tryPortDigits] at h
    split at h
    · rename_i hcond
      cases h
      refine ⟨?_, hcond.2.2.1⟩
      rw [hcond.2.1]
    · obtain ⟨h1, h2⟩ := ih d h
      exact ⟨Nat.le_succ_of_le h1, h2⟩

theorem tryHostSplit_spec (rest : List Char) :
    ∀ (k : Nat) (h d : List Char), tryHostSplit rest k = some (h, d) →
      d.length ≤ 5 ∧ d.all isDigitChar = true := by
  intro k
  induction k with
  | zero => intro h d hyp; cases hyp
  | succ k ih =>
    intro h d hyp
    rw [tryHostSplit] at hyp
    split at hyp
    · revert hyp
      cases hp : tryPortDigits (rest.drop (k + 2)) 5 with
      | none => intro hyp; exact ih h d hyp
      | some d' =>
        intro hyp
        cases hyp
        exact tryPortDigits_spec _ 5 d hp
    · exact ih h d hyp

theorem searchForwardLine_spec :
    ∀ (l h d : List Char), searchForwardLine l = some (h, d) →
      d.length ≤ 5 ∧ d.all isDigitChar = true := by
  intro l
  induction l with
  | nil => intro h d hyp; cases hyp
  | cons c cs ih =>
    intro h d hyp
    rw [searchForwardLine] at hyp
    split at hyp
    · revert hyp
      cases hs : tryHostSplit ((c :: cs).drop forwardLit.length)
          ((c :: cs).drop forwardLit.length).length with
      | none => intro hyp; exact ih h d hyp
      | some r =>
        intro hyp
        cases hyp
        exact tryHostSplit_spec _ _ h d hs
    · exact ih h d hyp

theorem natOfDigits_foldl_lt (l : List Char) (hdig : l.all isDigitChar = true) :
    ∀ acc : Nat,
      l.foldl (fun acc c => 10 * acc + (c.toNat - 48)) acc < (acc + 1) * 10 ^ l.length := by
  induction l with
  | nil =>
    intro acc
    simp
  | cons c cs ih =>
    intro acc
    rw [List.all_cons, Bool.and_eq_true] at hdig
    have hc : c.toNat - 48 ≤ 9 := by
      have := hdig.1
      simp only [isDigitChar, Bool.and_eq_true, decide_eq_true_eq] at this
      omega
    have step : (10 * acc + (c.toNat - 48)) + 1 ≤ 10 * (acc + 1) := by omega
    calc List.foldl (fun acc c => 10 * acc + (c.toNat - 48)) (10 * acc + (c.toNat - 48)) cs
        < ((10 * acc + (c.toNat - 48)) + 1) * 10 ^ cs.length := ih hdig.2 _
      _ ≤ (10 * (acc + 1)) * 10 ^ cs.length := Nat.mul_le_mul_right _ step
      _ = (acc + 1) * 10 ^ (cs.length + 1) := by ring

theorem natOfDigits_lt (l : List Char) (hdig : l.all isDigitChar = true) :
    natOfDigits l < 10 ^ l.length := by
  have := natOfDigits_foldl_lt l hdig 0
  simpa [natOfDigits] using this

/-- C6: the code does **not** surface a non-matching first stdout line as
a `TunnelStartupFailed`/`TunnelOpenFailed` error: it `unwrap`s the `None`
returned by `regex.captures`, i.e. it panics, so no `ForwardError` reaches
the request handler and no 502 response is produced. A matching line, by
contrast, parses into the `Portforward`. -/
theorem C6_nonmatching_line_panics :
    from_app_parse "error: unable to listen on any of the requested ports" =
      .panicked ∧
    from_app_parse "Forwarding from 127.0.0.1:8080 -> 80" =
      .ok ⟨"127.0.0.1", 8080⟩ := by
  decide

/-- The counterexample to C9: the port pattern `\d{2,5}` accepts five
digits, so a first stdout line announcing port 99999 produces a
`Portforward` whose `port` exceeds 65535 (the field is a `usize`, not a
`u16`). -/
theorem C9_counterexample :
    from_app_parse "Forwarding from 127.0.0.1:99999 -> 99999" =
      .ok ⟨"127.0.0.1", 99999⟩ ∧
    ¬ (99999 ≤ 65535) := by
  decide

/-- C9 (amended): every `Portforward` produced by parsing the child's
first stdout line has `port < 100000` (the capture has 2–5 decimal
digits); the field is *not* bounded by 65535. -/
theorem C9_port_bound :
    ∀ (line : String) (h : String) (p : Nat),
      from_app_parse line = .ok ⟨h, p⟩ → p < 100000 := by
  intro line h p hyp
  unfold from_app_parse at hyp
  revert hyp
  cases hs : searchForwardLine line.toList with
  | none => intro hyp; cases hyp
  | some r =>
    intro hyp
    obtain ⟨hd, hdig⟩ := searchForwardLine_spec line.toList r.1 r.2 (by rw [hs])
    have hlt := natOfDigits_lt r.2 hdig
    have hle : (10 : Nat) ^ r.2.length ≤ 10 ^ 5 :=
      Nat.pow_le_pow_right (by omega) hd
    cases hyp
    omega

/-- Witness for `C9_port_bound` at a concrete line. -/
theorem C9_port_bound_witness :
    from_app_parse "Forwarding from 127.0.0.1:8080 -> 80" =
      .ok ⟨"127.0.0.1", 8080⟩ ∧ 8080 < 100000 :=
  ⟨by decide, C9_port_bound "Forwarding from 127.0.0.1:8080 -> 80" "127.0.0.1" 8080
    (by decide)⟩

/-! ## Discovery (`kubernetes.rs`, `State::fetch_descriptors`) -/

structure HealthCheck where
  path : String
deriving DecidableEq, Repr

structure ResourceMetadata where
  name : String
deriving DecidableEq, Repr

structure ApplicationResourceSpec where
  ingresses : Option (List String)
  liveness : Option HealthCheck
  readiness : Option HealthCheck
deriving DecidableEq, Repr

structure ApplicationResource where
  spec : ApplicationResourceSpec
  metadata : ResourceMetadata
deriving DecidableEq, Repr

structure KubernetesResponse where
  items : List ApplicationResource
deriving DecidableEq, Repr

/-- `ApplicationDescriptor::create`. The source `unwrap`s
`resource.spec.ingresses`; it is only ever called on items that passed the
`is_some` filter, so the `getD []` default is never taken there. -/
def ApplicationDescriptor.create (resource : ApplicationResource)
    (context ns : String) : ApplicationDescriptor :=
  { application_name := resource.metadata.name
    ingresses := resource.spec.ingresses.getD []
    liveness := resource.spec.liveness.map (fun v => v.path)
    context := context
    «namespace» := ns }

/-- The pure tail of `State::fetch_descriptors` (after `kubectl` ran and
its stdout was deserialized into a `KubernetesResponse`):

```rust
resource.items.into_iter()
    .filter(|application| application.spec.ingresses.is_some())
    .map(|application| ApplicationDescriptor::create(application, context.clone(), namespace.clone()))
    .collect()
``` -/
def fetch_descriptors_items (resp : KubernetesResponse) (context ns : String) :
    List ApplicationDescriptor :=
  (resp.items.filter (fun a => a.spec.ingresses.isSome)).map
    (fun a => ApplicationDescriptor.create a context ns)

/-- An item whose `spec.ingresses` is present but **empty**. -/
def emptyIngressItem : ApplicationResource := ⟨⟨some [], none, none⟩, ⟨"app"⟩⟩

def emptyIngressResp : KubernetesResponse := ⟨[emptyIngressItem]⟩

/-- The counterexample to C7: the code filters only on
`spec.ingresses.is_some()`, so an item with a present-but-empty ingress
list **survives** and yields a descriptor, while the claim says items with
empty `spec.ingresses` are filtered out. -/
theorem C7_counterexample :
    emptyIngressItem.spec.ingresses = some [] ∧
    fetch_descriptors_items emptyIngressResp "ctx" "ns" =
      [⟨"app", [], none, "ctx", "ns"⟩] ∧
    (fetch_descriptors_items emptyIngressResp "ctx" "ns").length ≠ 0 := by
  decide

/-- C7 (amended): `fetch_descriptors` filters out exactly the items whose
`spec.ingresses` field is **absent** (items with a present-but-empty list
are retained), and returns one `ApplicationDescriptor` per surviving item,
carrying the item's `metadata.name`, its ingresses, its optional liveness
path, and the given context and namespace. -/
theorem C7_fetch_descriptors :
    (∀ (resp : KubernetesResponse) (c n : String),
      (fetch_descriptors_items resp c n).length =
        (resp.items.filter (fun a => a.spec.ingresses.isSome)).length) ∧
    (∀ (resp : KubernetesResponse) (c n : String) (d : ApplicationDescriptor),
      d ∈ fetch_descriptors_items resp c n →
      ∃ item ∈ resp.items, item.spec.ingresses.isSome = true ∧
        d = ApplicationDescriptor.create item c n) ∧
    (∀ (resp : KubernetesResponse) (c n : String) (item : ApplicationResource),
      item ∈ resp.items → item.spec.ingresses.isSome = true →
      ApplicationDescriptor.create item c n ∈ fetch_descriptors_items resp c n) ∧
    (∀ (item : ApplicationResource) (c n : String),
      (ApplicationDescriptor.create item c n).application_name = item.metadata.name ∧
      (ApplicationDescriptor.create item c n).ingresses = item.spec.ingresses.getD [] ∧
      (ApplicationDescriptor.create item c n).liveness =
        item.spec.liveness.map (fun v => v.path) ∧
      (ApplicationDescriptor.create item c n).context = c ∧
      (ApplicationDescriptor.create item c n).«namespace» = n) := by
  refine ⟨?_, ?_, ?_, ?_⟩
  · intro resp c n
    exact List.length_map _ _
  · intro resp c n d hd
    obtain ⟨item, hitem, heq⟩ := List.mem_map.mp hd
    obtain ⟨hmem, hfilt⟩ := List.mem_filter.mp hitem
    exact ⟨item, hmem, hfilt, heq.symm⟩
  · intro resp c n item hmem hsome
    exact List.mem_map.mpr ⟨item, List.mem_filter.mpr ⟨hmem, hsome⟩, rfl⟩
  · intro item c n
    exact ⟨rfl, rfl, rfl, rfl, rfl⟩

/-- Witness for `C7_fetch_descriptors` at a concrete response. -/
theorem C7_fetch_descriptors_witness :
    ApplicationDescriptor.create emptyIngressItem "ctx" "ns" ∈
      fetch_descriptors_items emptyIngressResp "ctx" "ns" ∧
    emptyIngressItem ∈ emptyIngressResp.items :=
  ⟨C7_fetch_descriptors.2.2.1 emptyIngressResp "ctx" "ns" emptyIngressItem
      (by decide) (by decide),
    by decide⟩

/-! ## `State::hostnames` and the host-extraction regex

`hostnames` runs `Regex::new(r"https?://(.[^/]+)(:?/.*)?")` against every
ingress of every descriptor and `unwrap`s the captures: a non-matching
ingress is a **panic**. The regex is modelled by a matcher specialised to
this pattern; group 1 is `.` (any non-newline character) followed by a
non-empty maximal run of non-`/` characters. -/

/-- `"https?://"` at the current position (the greedy alternative: `https`
is preferred, and on failure `http` cannot recover an `s`). -/
def stripHttpScheme (l : List Char) : Option (List Char) :=
  if ("https://".toList).isPrefixOf l then some (l.drop 8)
  else if ("http://".toList).isPrefixOf l then some (l.drop 7)
  else none

/-- Group 1, `(.[^/]+)`, at the start of `rest`. -/
def captureHostGroup (rest : List Char) : Option (List Char) :=
  match rest with
  | [] => none
  | c :: cs =>
    if c = '\n' then none
    else
      let run := cs.takeWhile (fun x => x ≠ '/')
      if run = [] then none else some (c :: run)

/-- Leftmost match of `https?://(.[^/]+)(:?/.*)?`, returning capture
group 1 (the trailing optional group never constrains it). -/
def hostRegexGroup1 : List Char → Option (List Char)
  | [] => none
  | c :: cs =>
    match stripHttpScheme (c :: cs) with
    | some rest =>
      match captureHostGroup rest with
      | some h => some h
      | none => hostRegexGroup1 cs
    | none => hostRegexGroup1 cs

/-- Rust's `Ord` on `String` (byte-lexicographic, which on valid UTF-8
coincides with codepoint-lexicographic order), as a `≤` test. -/
def strLeChars : List Char → List Char → Bool
  | [], _ => true
  | _ :: _, [] => false
  | a :: as, b :: bs =>
    if a = b then strLeChars as bs else decide (a.toNat < b.toNat)

def strLe (s t : String) : Bool := strLeChars s.toList t.toList

def insertSorted (s : String) : List String → List String
  | [] => [s]
  | t :: ts => if strLe s t then s :: t :: ts else t :: insertSorted s ts

/-- `hosts.sort()`: ascending insertion sort (Lean's `String` order on
valid UTF-8 coincides with Rust's byte-lexicographic `Ord`). -/
def sortStrings : List String → List String
  | [] => []
  | s :: ss => insertSorted s (sortStrings ss)

/-- `hosts.dedup()`: collapse runs of adjacent equal entries. -/
def dedupAdjacent : List String → List String
  | [] => []
  | [s] => [s]
  | s :: t :: rest =>
    if s = t then dedupAdjacent (t :: rest) else s :: dedupAdjacent (t :: rest)

/-- The `.map(|ingress| regex.captures(ingress).unwrap()[1]).collect()`
step: `none` models the panic on the first non-matching ingress. -/
def collectHosts : List String → Option (List String)
  | [] => some []
  | ing :: rest =>
    match hostRegexGroup1 ing.toList with
    | none => none
    | some h =>
      match collectHosts rest with
      | none => none
      | some l => some (String.mk h :: l)

/-- `State::hostnames` (`none` = panic). -/
def State.hostnames (st : State) : Option (List String) :=
  (collectHosts (st.hosts.foldr (fun d acc => d.ingresses ++ acc) [])).map
    (fun hosts => dedupAdjacent (sortStrings hosts))

theorem collectHosts_isSome (l : List String) :
    (collectHosts l).isSome ↔ ∀ ing ∈ l, (hostRegexGroup1 ing.toList).isSome := by
  induction l with
  | nil => simp [collectHosts]
  | cons i is ih =>
    rw [collectHosts]
    cases hc : hostRegexGroup1 i.toList with
    | none =>
      simp only [Option.isSome_none, Bool.false_eq_true, false_iff]
      intro hall
      have := hall i (List.mem_cons_self _ _)
      rw [hc] at this
      cases this
    | some h =>
      cases hr : collectHosts is with
      | none =>
        simp only [Option.isSome_none, Bool.false_eq_true, false_iff]
        intro hall
        have : (collectHosts is).isSome := ih.mpr
          (fun ing hing => hall ing (List.mem_cons_of_mem _ hing))
        rw [hr] at this
        cases this
      | some hl =>
        simp only [Option.isSome_some, true_iff]
        intro ing hing
        rcases List.mem_cons.mp hing with rfl | hing
        · rw [hc]; rfl
        · have := ih.mp (by rw [hr]; rfl)
          exact this ing hing

theorem mem_flat_ingresses (descs : List ApplicationDescriptor) (ing : String) :
    ing ∈ descs.foldr (fun d acc => d.ingresses ++ acc) [] ↔
    ∃ d ∈ descs, ing ∈ d.ingresses := by
  induction descs with
  | nil => simp
  | cons d ds ih =>
    simp only [List.foldr_cons, List.mem_append, ih, List.mem_cons]
    constructor
    · intro h
      rcases h with h | ⟨d', hd', hi⟩
      · exact ⟨d, Or.inl rfl, h⟩
      · exact ⟨d', Or.inr hd', hi⟩
    · intro ⟨d', hd', hi⟩
      rcases hd' with rfl | hd'
      · exact Or.inl hi
      · exact Or.inr ⟨d', hd', hi⟩

/-- A descriptor whose ingress has a single-character host: `hostnames`'s
regex needs at least two characters after the scheme, so this ingress does
not match, while `Uri::from_str` parses it cleanly. -/
def exDescBare : ApplicationDescriptor := ⟨"app", ["http://h"], none, "ctx", "ns"⟩

def stBadIngress : State := ⟨0, [exDescBare], []⟩

/-- The descriptor of §8 test invariant 7 (hostname enumeration). -/
def exDescGoodHosts : ApplicationDescriptor :=
  ⟨"app", ["https://a.example/", "http://b.example/x", "https://a.example/y"],
    none, "ctx", "ns"⟩

def stGoodHosts : State := ⟨0, [exDescGoodHosts], []⟩

/-- C10: `hostnames()` is total exactly when every stored ingress matches
`https?://(.[^/]+)(:?/.*)?`; a state containing a non-matching ingress
(here the single-character host `"http://h"`, or any non-http scheme such
as `"ftp://x/y"`) makes `hostnames()` panic on the unwrapped capture,
while `best_ingress` handles the very same ingress without panicking. -/
theorem C10_hostnames_partiality :
    (∀ st : State, (st.hostnames).isSome ↔
      ∀ d ∈ st.hosts, ∀ ing ∈ d.ingresses, (hostRegexGroup1 ing.toList).isSome) ∧
    stBadIngress.hostnames = none ∧
    hostRegexGroup1 ("ftp://x/y".toList) = none ∧
    exDescBare.best_ingress "h" "/" = some "http://h" ∧
    stGoodHosts.hostnames = some ["a.example", "b.example"] := by
  refine ⟨?_, by decide, by decide, by decide, by decide⟩
  intro st
  unfold State.hostnames
  rw [Option.isSome_map']
  rw [collectHosts_isSome]
  constructor
  · intro h d hd ing hing
    exact h ing ((mem_flat_ingresses st.hosts ing).mpr ⟨d, hd, hing⟩)
  · intro h ing hing
    obtain ⟨d, hd, hi⟩ := (mem_flat_ingresses st.hosts ing).mp hing
    exact h d hd ing hi

/-- Witness for `C10_hostnames_partiality` at a concrete state. -/
theorem C10_hostnames_partiality_witness :
    (stGoodHosts.hostnames).isSome = true :=
  (C10_hostnames_partiality.1 stGoodHosts).mpr (by decide)

/-! ## Hosts-file update (`hosts.rs`)

File contents are byte lists (`List Nat`). `insert_or_replace_entries`
searches for the marker byte strings with
`input.windows(n).position(|v| v == pat)` (first occurrence), modelled by
`findSub`; the header-without-footer `expect` panic is modelled as `none`.
The POSIX line separator (`\n` = byte 10) is used. -/

/-- Bytes of an ASCII string literal. -/
def strBytes (s : String) : List Nat := s.toList.map Char.toNat

def HEADER : List Nat := strBytes "### START AUTOFORWARD"

def FOOTER : List Nat := strBytes "### END AUTOFORWARD"

def LINE_SEPARATOR : List Nat := [10]

/-- `input.windows(pat.len()).position(|v| v == pat)` for non-empty
`pat`: index of the first occurrence of `pat` as a contiguous sublist. -/
def findSub (pat : List Nat) : List Nat → Option Nat
  | [] => if pat.isPrefixOf ([] : List Nat) then some 0 else none
  | c :: rest =>
    if pat.isPrefixOf (c :: rest) then some 0
    else (findSub pat rest).map (· + 1)

/-- `pat` occurs in `l` starting at index `i`. -/
def occursAt (pat l : List Nat) (i : Nat) : Prop :=
  (l.drop i).take pat.length = pat

/-- `insert_or_replace_entries`; `none` models the
`expect("Found header without any footer following")` panic. -/
def insert_or_replace_entries (input replacement : List Nat) : Option (List Nat) :=
  match findSub HEADER input with
  | some s =>
    match findSub FOOTER input with
    | some e =>
      some (input.take s ++ HEADER ++ LINE_SEPARATOR ++ replacement ++ FOOTER ++
        input.drop (e + FOOTER.length))
    | none => none
  | none =>
    some (input ++ LINE_SEPARATOR ++ HEADER ++ LINE_SEPARATOR ++ replacement ++
      FOOTER ++ LINE_SEPARATOR)

/-- One generated hosts line: `127.0.0.1 <host>\n`. -/
def hostEntry (h : List Nat) : List Nat := strBytes "127.0.0.1 " ++ h ++ LINE_SEPARATOR

/-- `generate_host_entries`. -/
def generate_host_entries (hosts : List (List Nat)) : List Nat :=
  hosts.foldr (fun h acc => hostEntry h ++ acc) []

/-- The pure content transformation performed by `update_hosts_file`
(which reads `path`, applies this, and truncate-writes the result back). -/
def update_hosts_bytes (input : List Nat) (hosts : List (List Nat)) : Option (List Nat) :=
  insert_or_replace_entries input (generate_host_entries hosts)

theorem isPrefixOf_iff_take (pat : List Nat) :
    ∀ l : List Nat, pat.isPrefixOf l = true ↔ l.take pat.length = pat := by
  induction pat with
  | nil => intro l; simp [List.isPrefixOf]
  | cons p ps ih =>
    intro l
    cases l with
    | nil => simp [List.isPrefixOf]
    | cons c cs =>
      simp only [List.isPrefixOf, Bool.and_eq_true, beq_iff_eq, List.length_cons,
        List.take_succ_cons, List.cons.injEq, ih cs]
      constructor
      · intro ⟨h1, h2⟩; exact ⟨h1.symm, h2⟩
      · intro ⟨h1, h2⟩; exact ⟨h1.symm, h2⟩

theorem occursAt_zero_append (pat tail : List Nat) : occursAt pat (pat ++ tail) 0 := by
  unfold occursAt
  rw [List.drop_zero, List.take_left']
  rfl

theorem occursAt_length (pat l : List Nat) (i : Nat) (hne : pat ≠ [])
    (h : occursAt pat l i) : i + pat.length ≤ l.length := by
  unfold occursAt at h
  have hlen := congrArg List.length h
  rw [List.length_take, List.length_drop] at hlen
  have h1 : pat.length ≤ l.length - i := by
    rcases Nat.le_total pat.length (l.length - i) with hle | hle
    · exact hle
    · rw [Nat.min_eq_right hle] at hlen
      omega
  have h2 : 1 ≤ pat.length := by
    cases pat with
    | nil => exact absurd rfl hne
    | cons a as => simp
  omega

theorem occursAt_getElem (pat l : List Nat) (i : Nat) (h : occursAt pat l i) :
    ∀ k, k < pat.length → l[i + k]? = pat[k]? := by
  intro k hk
  unfold occursAt at h
  have h1 : pat[k]? = ((l.drop i).take pat.length)[k]? := by rw [h]
  rw [List.getElem?_take_of_lt hk, List.getElem?_drop] at h1
  exact h1.symm

/-- An occurrence is determined by any prefix long enough to contain it. -/
theorem occursAt_of_take_eq (pat l l' : List Nat) (m i : Nat)
    (hm : l.take m = l'.take m) (hi : i + pat.length ≤ m)
    (h : occursAt pat l i) : occursAt pat l' i := by
  unfold occursAt at h ⊢
  have key : ∀ x : List Nat, i + pat.length ≤ m →
      ((x.take m).drop i).take pat.length = (x.drop i).take pat.length := by
    intro x him
    rw [List.drop_take]
    rw [List.take_take]
    congr 1
    omega
  rw [← key l' hi, ← hm, key l hi]
  exact h

theorem occursAt_append_right (pat a b : List Nat) (k : Nat) :
    occursAt pat (a ++ b) (a.length + k) ↔ occursAt pat b k := by
  unfold occursAt
  rw [← List.drop_drop, List.drop_left]

theorem occursAt_nil_iff (pat : List Nat) (j : Nat) :
    occursAt pat [] j ↔ pat = [] := by
  unfold occursAt
  rw [List.drop_nil, List.take_nil]
  exact eq_comm

theorem occursAt_zero_iff (pat : List Nat) (l : List Nat) :
    occursAt pat l 0 ↔ pat.isPrefixOf l = true := by
  unfold occursAt
  rw [List.drop_zero, isPrefixOf_iff_take]

theorem occursAt_succ_cons (pat : List Nat) (c : Nat) (cs : List Nat) (j : Nat) :
    occursAt pat (c :: cs) (j + 1) ↔ occursAt pat cs j := by
  unfold occursAt
  rw [List.drop_succ_cons]

theorem findSub_eq_some_iff (pat : List Nat) :
    ∀ (l : List Nat) (i : Nat), findSub pat l = some i ↔
      (occursAt pat l i ∧ ∀ j, j < i → ¬ occursAt pat l j) := by
  intro l
  induction l with
  | nil =>
    intro i
    rw [findSub]
    by_cases hp : pat.isPrefixOf ([] : List Nat)
    · rw [if_pos hp]
      have hpat : pat = [] := by
        have := (isPrefixOf_iff_take pat []).mp hp
        rw [List.take_nil] at this
        exact this.symm
      constructor
      · intro h
        cases h
        exact ⟨(occursAt_nil_iff pat 0).mpr hpat, by omega⟩
      · intro ⟨h1, h2⟩
        congr 1
        by_contra hne
        have hpos : 0 < i := Nat.pos_of_ne_zero (fun h => hne h.symm)
        exact h2 0 hpos ((occursAt_nil_iff pat 0).mpr hpat)
    · rw [if_neg hp]
      constructor
      · intro h; cases h
      · intro ⟨h1, _⟩
        exfalso
        exact hp ((occursAt_zero_iff pat []).mp (by
          rw [occursAt_nil_iff] at h1 ⊢
          exact h1))
  | cons c cs ih =>
    intro i
    rw [findSub]
    by_cases hp : pat.isPrefixOf (c :: cs)
    · rw [if_pos hp]
      have h0 : occursAt pat (c :: cs) 0 := (occursAt_zero_iff pat (c :: cs)).mpr hp
      constructor
      · intro h
        cases h
        exact ⟨h0, by omega⟩
      · intro ⟨h1, h2⟩
        congr 1
        by_contra hne
        have hpos : 0 < i := Nat.pos_of_ne_zero (fun h => hne h.symm)
        exact h2 0 hpos h0
    · rw [if_neg hp]
      have hnot0 : ¬ occursAt pat (c :: cs) 0 := fun h0 =>
        hp ((occursAt_zero_iff pat (c :: cs)).mp h0)
      cases i with
      | zero =>
        constructor
        · intro h
          obtain ⟨a, _, ha⟩ := Option.map_eq_some'.mp h
          exact absurd ha (by omega)
        · intro ⟨h1, _⟩
          exact absurd h1 hnot0
      | succ n =>
        constructor
        · intro h
          obtain ⟨a, ha, haa⟩ := Option.map_eq_some'.mp h
          have han : n = a := by omega
          subst han
          obtain ⟨h1, h2⟩ := (ih n).mp ha
          refine ⟨(occursAt_succ_cons pat c cs n).mpr h1, ?_⟩
          intro j hj
          cases j with
          | zero => exact hnot0
          | succ m =>
            rw [occursAt_succ_cons]
            exact h2 m (by omega)
        · intro ⟨h1, h2⟩
          apply Option.map_eq_some'.mpr
          refine ⟨n, (ih n).mpr ⟨(occursAt_succ_cons pat c cs n).mp h1, ?_⟩, rfl⟩
          intro j hj hocc
          exact h2 (j + 1) (by omega) ((occursAt_succ_cons pat c cs j).mpr hocc)

theorem findSub_eq_none_iff (pat : List Nat) :
    ∀ l : List Nat, findSub pat l = none ↔ ∀ j, ¬ occursAt pat l j := by
  intro l
  induction l with
  | nil =>
    rw [findSub]
    by_cases hp : pat.isPrefixOf ([] : List Nat)
    · rw [if_pos hp]
      constructor
      · intro h; cases h
      · intro hall
        exfalso
        apply hall 0
        rw [occursAt_zero_iff]
        exact hp
    · rw [if_neg hp]
      constructor
      · intro _ j hocc
        exact hp ((occursAt_zero_iff pat []).mp (by
          rw [occursAt_nil_iff] at hocc ⊢
          exact hocc))
      · intro _; rfl
  | cons c cs ih =>
    rw [findSub]
    by_cases hp : pat.isPrefixOf (c :: cs)
    · rw [if_pos hp]
      constructor
      · intro h; cases h
      · intro hall
        exfalso
        exact hall 0 ((occursAt_zero_iff pat (c :: cs)).mpr hp)
    · rw [if_neg hp]
      rw [Option.map_eq_none', ih]
      constructor
      · intro hall j
        cases j with
        | zero => exact fun h0 => hp ((occursAt_zero_iff pat (c :: cs)).mp h0)
        | succ m =>
          intro hocc
          exact hall m ((occursAt_succ_cons pat c cs m).mp hocc)
      · intro hall j hocc
        exact hall (j + 1) ((occursAt_succ_cons pat c cs j).mpr hocc)

theorem header_length : HEADER.length = 21 := by decide

theorem footer_length : FOOTER.length = 19 := by decide

theorem footer_head : FOOTER[0]? = some 35 := by decide

theorem header_hash_positions : ∀ j, j < 21 → HEADER[j]? = some 35 → j < 3 := by decide

theorem header_no_newline : ∀ j, j < 21 → ¬ HEADER[j]? = some 10 := by decide

theorem footer_no_newline : ∀ j, j < 19 → ¬ FOOTER[j]? = some 10 := by decide

theorem header_head_byte : HEADER[0]? = some 35 := by decide

/-- Bytes of the generated host entries: no `#` when no host contains one. -/
theorem generate_host_entries_no_hash (hosts : List (List Nat))
    (h : ∀ hst ∈ hosts, (35 : Nat) ∉ hst) :
    ∀ b ∈ generate_host_entries hosts, b ≠ 35 := by
  induction hosts with
  | nil => intro b hb; cases hb
  | cons hst rest ih =>
    intro b hb
    unfold generate_host_entries at hb
    rw [List.foldr_cons] at hb
    have h127 : ∀ b ∈ strBytes "127.0.0.1 ", (b : Nat) ≠ 35 := by decide
    have hLS : ∀ b ∈ LINE_SEPARATOR, (b : Nat) ≠ 35 := by decide
    rcases List.mem_append.mp hb with hb | hb
    · unfold hostEntry at hb
      rcases List.mem_append.mp hb with hb | hb
      · rcases List.mem_append.mp hb with hb | hb
        · exact h127 b hb
        · intro hcontra
          exact h hst (List.mem_cons_self _ _) (hcontra ▸ hb)
      · exact hLS b hb
    · exact ih (fun q hq => h q (List.mem_cons_of_mem _ hq)) b hb

/-- In the freshly written block `HEADER ++ "\n" ++ repl ++ FOOTER ++ tail`
(with `repl` free of `#` bytes) the first occurrence of `FOOTER` starts at
the written footer, not earlier. -/
theorem footer_first_in_block (repl tail : List Nat)
    (hrepl : ∀ b ∈ repl, b ≠ 35) :
    ∀ j, occursAt FOOTER
        (HEADER ++ (LINE_SEPARATOR ++ (repl ++ (FOOTER ++ tail)))) j →
      HEADER.length + 1 + repl.length ≤ j := by
  have hH : HEADER.length = 21 := header_length
  intro j hocc
  by_contra hlt
  push_neg at hlt
  have hb : (HEADER ++ (LINE_SEPARATOR ++ (repl ++ (FOOTER ++ tail))))[j]? = some 35 := by
    have hx := occursAt_getElem FOOTER _ j hocc 0 (by decide)
    rw [Nat.add_zero, footer_head] at hx
    exact hx
  rcases Nat.lt_or_ge j HEADER.length with hj | hj
  · have hHb : HEADER[j]? = some 35 := by
      rw [List.getElem?_append_left hj] at hb
      exact hb
    have hj3 : j < 3 := header_hash_positions j (by omega) hHb
    have hocc' : (HEADER.drop j).take FOOTER.length = FOOTER := by
      unfold occursAt at hocc
      rw [List.drop_append_of_le_length (by omega)] at hocc
      rw [List.take_append_of_le_length (by
        rw [List.length_drop]
        rw [footer_length]
        omega)] at hocc
      exact hocc
    rw [footer_length] at hocc'
    interval_cases j
    · revert hocc'; decide
    · revert hocc'; decide
    · revert hocc'; decide
  · rcases Nat.eq_or_lt_of_le hj with hj21 | hj22
    · have h10 : (HEADER ++ (LINE_SEPARATOR ++ (repl ++ (FOOTER ++ tail))))[j]? =
          some 10 := by
        rw [← hj21]
        rw [List.getElem?_append_right (Nat.le_refl _)]
        rw [Nat.sub_self]
        rw [List.getElem?_append_left (by decide)]
        decide
      rw [hb] at h10
      cases h10
    · have hge : HEADER.length ≤ j := hj
      rw [List.getElem?_append_right hge] at hb
      have hge1 : LINE_SEPARATOR.length ≤ j - HEADER.length := by
        unfold LINE_SEPARATOR
        simp only [List.length_cons, List.length_nil]
        omega
      rw [List.getElem?_append_right hge1] at hb
      have hlt2 : j - HEADER.length - LINE_SEPARATOR.length < repl.length := by
        unfold LINE_SEPARATOR
        simp only [List.length_cons, List.length_nil]
        omega
      rw [List.getElem?_append_left hlt2] at hb
      have hmem : (35 : Nat) ∈ repl := by
        apply List.get?_mem
        rw [List.get?_eq_getElem?]
        exact hb
      exact hrepl 35 hmem rfl

theorem insert_entries_of_found (input repl : List Nat) (s e : Nat)
    (hs : findSub HEADER input = some s) (he : findSub FOOTER input = some e) :
    insert_or_replace_entries input repl =
      some (input.take s ++ HEADER ++ LINE_SEPARATOR ++ repl ++ FOOTER ++
        input.drop (e + FOOTER.length)) := by
  unfold insert_or_replace_entries
  rw [hs, he]

theorem insert_entries_of_none (input repl : List Nat)
    (hn : findSub HEADER input = none) :
    insert_or_replace_entries input repl =
      some (input ++ LINE_SEPARATOR ++ HEADER ++ LINE_SEPARATOR ++ repl ++ FOOTER ++
        LINE_SEPARATOR) := by
  unfold insert_or_replace_entries
  rw [hn]

/-- Applying the replacement a second time to a replace-branch output
reproduces it byte for byte. -/
theorem replace_fixpoint (input repl : List Nat) (s e : Nat)
    (hrepl : ∀ b ∈ repl, b ≠ 35)
    (hs : findSub HEADER input = some s)
    (he : findSub FOOTER input = some e)
    (hse : s ≤ e) :
    insert_or_replace_entries
      (input.take s ++ HEADER ++ LINE_SEPARATOR ++ repl ++ FOOTER ++
        input.drop (e + FOOTER.length)) repl =
    some (input.take s ++ HEADER ++ LINE_SEPARATOR ++ repl ++ FOOTER ++
        input.drop (e + FOOTER.length)) := by
  obtain ⟨hsOcc, hsMin⟩ := (findSub_eq_some_iff HEADER input s).mp hs
  obtain ⟨heOcc, heMin⟩ := (findSub_eq_some_iff FOOTER input e).mp he
  have hH : HEADER.length = 21 := header_length
  have hF : FOOTER.length = 19 := footer_length
  have hLS : LINE_SEPARATOR.length = 1 := by decide
  have hsLen : s + HEADER.length ≤ input.length :=
    occursAt_length _ _ _ (by decide) hsOcc
  set pre := input.take s with hpre
  set suf := input.drop (e + FOOTER.length) with hsuf
  have hpreLen : pre.length = s := by
    rw [hpre, List.length_take]
    omega
  set out := pre ++ HEADER ++ LINE_SEPARATOR ++ repl ++ FOOTER ++ suf with houtdef
  have houtAssoc : out =
      pre ++ (HEADER ++ (LINE_SEPARATOR ++ (repl ++ (FOOTER ++ suf)))) := by
    rw [houtdef]
    simp [List.append_assoc]
  have hsplitPH : out = (pre ++ HEADER) ++
      (LINE_SEPARATOR ++ (repl ++ (FOOTER ++ suf))) := by
    rw [houtdef]
    simp [List.append_assoc]
  have hinputTake : input.take (s + HEADER.length) = pre ++ HEADER := by
    rw [List.take_add]
    congr 1
  have houtTake : out.take (s + HEADER.length) = pre ++ HEADER := by
    rw [hsplitPH]
    apply List.take_left'
    rw [List.length_append, hpreLen]
  have hagree : out.take (s + HEADER.length) = input.take (s + HEADER.length) :=
    houtTake.trans hinputTake.symm
  have hfindH : findSub HEADER out = some s := by
    rw [findSub_eq_some_iff]
    constructor
    · have h0 : occursAt HEADER
          (HEADER ++ (LINE_SEPARATOR ++ (repl ++ (FOOTER ++ suf)))) 0 :=
        occursAt_zero_append _ _
      have h1 := (occursAt_append_right HEADER pre
        (HEADER ++ (LINE_SEPARATOR ++ (repl ++ (FOOTER ++ suf)))) 0).mpr h0
      rw [houtAssoc]
      rw [show s = pre.length + 0 from by omega]
      exact h1
    · intro j hj hocc
      exact hsMin j hj (occursAt_of_take_eq HEADER out input
        (s + HEADER.length) j hagree (by omega) hocc)
  have hfindF : findSub FOOTER out =
      some (pre.length + (HEADER.length + (LINE_SEPARATOR.length + repl.length))) := by
    rw [findSub_eq_some_iff]
    constructor
    · have h0 : occursAt FOOTER (repl ++ (FOOTER ++ suf)) (repl.length + 0) :=
        (occursAt_append_right FOOTER repl (FOOTER ++ suf) 0).mpr
          (occursAt_zero_append _ _)
      have h1 := (occursAt_append_right FOOTER LINE_SEPARATOR
        (repl ++ (FOOTER ++ suf)) (repl.length + 0)).mpr h0
      have h2 := (occursAt_append_right FOOTER HEADER
        (LINE_SEPARATOR ++ (repl ++ (FOOTER ++ suf)))
        (LINE_SEPARATOR.length + (repl.length + 0))).mpr h1
      have h3 := (occursAt_append_right FOOTER pre
        (HEADER ++ (LINE_SEPARATOR ++ (repl ++ (FOOTER ++ suf))))
        (HEADER.length + (LINE_SEPARATOR.length + (repl.length + 0)))).mpr h2
      rw [houtAssoc]
      rw [show pre.length + (HEADER.length + (LINE_SEPARATOR.length + repl.length)) =
        pre.length + (HEADER.length + (LINE_SEPARATOR.length + (repl.length + 0)))
        from by omega]
      exact h3
    · intro j hj hocc
      rcases Nat.lt_or_ge j s with hjs | hjs
      · have htrans : occursAt FOOTER input j :=
          occursAt_of_take_eq FOOTER out input (s + HEADER.length) j hagree
            (by omega) hocc
        exact heMin j (by omega) htrans
      · have hk : j = pre.length + (j - s) := by omega
        rw [hk, houtAssoc] at hocc
        rw [occursAt_append_right] at hocc
        have hblock := footer_first_in_block repl suf hrepl (j - s) hocc
        omega
  rw [insert_entries_of_found out repl s
    (pre.length + (HEADER.length + (LINE_SEPARATOR.length + repl.length)))
    hfindH hfindF]
  congr 1
  have houtTakeS : out.take s = pre := by
    rw [houtAssoc]
    exact List.take_left' hpreLen
  have houtDrop : out.drop
      (pre.length + (HEADER.length + (LINE_SEPARATOR.length + repl.length)) +
        FOOTER.length) = suf := by
    have hsplit : out = (pre ++ HEADER ++ LINE_SEPARATOR ++ repl ++ FOOTER) ++ suf := by
      rw [houtdef]
    have hlen : (pre ++ HEADER ++ LINE_SEPARATOR ++ repl ++ FOOTER).length =
        pre.length + (HEADER.length + (LINE_SEPARATOR.length + repl.length)) +
          FOOTER.length := by
      simp only [List.length_append]
      try omega
    rw [hsplit, ← hlen, List.drop_left]
  rw [houtTakeS, houtDrop]

/-- Applying the replacement a second time to an append-branch output
reproduces it byte for byte. -/
theorem append_fixpoint (input repl : List Nat)
    (hrepl : ∀ b ∈ repl, b ≠ 35)
    (hH0 : findSub HEADER input = none)
    (hF0 : findSub FOOTER input = none) :
    insert_or_replace_entries
      (input ++ LINE_SEPARATOR ++ HEADER ++ LINE_SEPARATOR ++ repl ++ FOOTER ++
        LINE_SEPARATOR) repl =
    some (input ++ LINE_SEPARATOR ++ HEADER ++ LINE_SEPARATOR ++ repl ++ FOOTER ++
        LINE_SEPARATOR) := by
  have hHnone := (findSub_eq_none_iff HEADER input).mp hH0
  have hFnone := (findSub_eq_none_iff FOOTER input).mp hF0
  have hH : HEADER.length = 21 := header_length
  have hF : FOOTER.length = 19 := footer_length
  have hLS : LINE_SEPARATOR.length = 1 := by decide
  set out := input ++ LINE_SEPARATOR ++ HEADER ++ LINE_SEPARATOR ++ repl ++ FOOTER ++
    LINE_SEPARATOR with houtdef
  have houtAssoc : out = input ++ (LINE_SEPARATOR ++ (HEADER ++
      (LINE_SEPARATOR ++ (repl ++ (FOOTER ++ LINE_SEPARATOR))))) := by
    rw [houtdef]
    simp [List.append_assoc]
  have htakeIn : out.take input.length = input.take input.length := by
    rw [houtAssoc, List.take_left' rfl, List.take_length]
  have hbyte10 : out[input.length]? = some 10 := by
    rw [houtAssoc]
    rw [List.getElem?_append_right (Nat.le_refl _), Nat.sub_self]
    rw [List.getElem?_append_left (by decide)]
    decide
  have hfindH : findSub HEADER out =
      some (input.length + LINE_SEPARATOR.length) := by
    rw [findSub_eq_some_iff]
    constructor
    · have h0 : occursAt HEADER (HEADER ++
          (LINE_SEPARATOR ++ (repl ++ (FOOTER ++ LINE_SEPARATOR)))) 0 :=
        occursAt_zero_append _ _
      have h1 := (occursAt_append_right HEADER LINE_SEPARATOR
        (HEADER ++ (LINE_SEPARATOR ++ (repl ++ (FOOTER ++ LINE_SEPARATOR)))) 0).mpr h0
      have h2 := (occursAt_append_right HEADER input
        (LINE_SEPARATOR ++ (HEADER ++ (LINE_SEPARATOR ++
          (repl ++ (FOOTER ++ LINE_SEPARATOR))))) (LINE_SEPARATOR.length + 0)).mpr h1
      rw [houtAssoc]
      rw [show input.length + LINE_SEPARATOR.length =
        input.length + (LINE_SEPARATOR.length + 0) from by omega]
      exact h2
    · intro j hj hocc
      have hjle : j ≤ input.length := by omega
      rcases Nat.lt_or_ge (j + HEADER.length) (input.length + 1) with hcase | hcase
      · exact hHnone j (occursAt_of_take_eq HEADER out input input.length j
          htakeIn (by omega) hocc)
      · have hk : input.length - j < HEADER.length := by omega
        have hx := occursAt_getElem HEADER out j hocc (input.length - j) hk
        rw [show j + (input.length - j) = input.length from by omega] at hx
        rw [hbyte10] at hx
        exact header_no_newline (input.length - j) (by omega) hx.symm
  have hfindF : findSub FOOTER out =
      some (input.length + (LINE_SEPARATOR.length + (HEADER.length +
        (LINE_SEPARATOR.length + repl.length)))) := by
    rw [findSub_eq_some_iff]
    constructor
    · have h0 : occursAt FOOTER (repl ++ (FOOTER ++ LINE_SEPARATOR))
          (repl.length + 0) :=
        (occursAt_append_right FOOTER repl (FOOTER ++ LINE_SEPARATOR) 0).mpr
          (occursAt_zero_append _ _)
      have h1 := (occursAt_append_right FOOTER LINE_SEPARATOR
        (repl ++ (FOOTER ++ LINE_SEPARATOR)) (repl.length + 0)).mpr h0
      have h2 := (occursAt_append_right FOOTER HEADER
        (LINE_SEPARATOR ++ (repl ++ (FOOTER ++ LINE_SEPARATOR)))
        (LINE_SEPARATOR.length + (repl.length + 0))).mpr h1
      have h3 := (occursAt_append_right FOOTER LINE_SEPARATOR
        (HEADER ++ (LINE_SEPARATOR ++ (repl ++ (FOOTER ++ LINE_SEPARATOR))))
        (HEADER.length + (LINE_SEPARATOR.length + (repl.length + 0)))).mpr h2
      have h4 := (occursAt_append_right FOOTER input
        (LINE_SEPARATOR ++ (HEADER ++ (LINE_SEPARATOR ++
          (repl ++ (FOOTER ++ LINE_SEPARATOR)))))
        (LINE_SEPARATOR.length + (HEADER.length +
          (LINE_SEPARATOR.length + (repl.length + 0))))).mpr h3
      rw [houtAssoc]
      rw [show input.length + (LINE_SEPARATOR.length + (HEADER.length +
          (LINE_SEPARATOR.length + repl.length))) =
        input.length + (LINE_SEPARATOR.length + (HEADER.length +
          (LINE_SEPARATOR.length + (repl.length + 0)))) from by omega]
      exact h4
    · intro j hj hocc
      rcases Nat.lt_or_ge j (input.length + 1) with hjin | hjblock
      · have hjle : j ≤ input.length := by omega
        rcases Nat.lt_or_ge (j + FOOTER.length) (input.length + 1) with hcase | hcase
        · exact hFnone j (occursAt_of_take_eq FOOTER out input input.length j
            htakeIn (by omega) hocc)
        · have hk : input.length - j < FOOTER.length := by omega
          have hx := occursAt_getElem FOOTER out j hocc (input.length - j) hk
          rw [show j + (input.length - j) = input.length from by omega] at hx
          rw [hbyte10] at hx
          exact footer_no_newline (input.length - j) (by omega) hx.symm
      · have hk : j = input.length +
            (LINE_SEPARATOR.length + (j - input.length - LINE_SEPARATOR.length)) := by
          omega
        rw [hk, houtAssoc] at hocc
        rw [occursAt_append_right, occursAt_append_right] at hocc
        have hblock := footer_first_in_block repl LINE_SEPARATOR hrepl
          (j - input.length - LINE_SEPARATOR.length) hocc
        omega
  rw [insert_entries_of_found out repl (input.length + LINE_SEPARATOR.length)
    (input.length + (LINE_SEPARATOR.length + (HEADER.length +
      (LINE_SEPARATOR.length + repl.length)))) hfindH hfindF]
  congr 1
  have houtTakeS : out.take (input.length + LINE_SEPARATOR.length) =
      input ++ LINE_SEPARATOR := by
    have hsplit : out = (input ++ LINE_SEPARATOR) ++
        (HEADER ++ (LINE_SEPARATOR ++ (repl ++ (FOOTER ++ LINE_SEPARATOR)))) := by
      rw [houtdef]
      simp [List.append_assoc]
    rw [hsplit]
    apply List.take_left'
    rw [List.length_append]
  have houtDrop : out.drop
      (input.length + (LINE_SEPARATOR.length + (HEADER.length +
        (LINE_SEPARATOR.length + repl.length))) + FOOTER.length) =
      LINE_SEPARATOR := by
    have hsplit : out = (input ++ LINE_SEPARATOR ++ HEADER ++ LINE_SEPARATOR ++
        repl ++ FOOTER) ++ LINE_SEPARATOR := by
      rw [houtdef]
    have hlen : (input ++ LINE_SEPARATOR ++ HEADER ++ LINE_SEPARATOR ++
        repl ++ FOOTER).length =
        input.length + (LINE_SEPARATOR.length + (HEADER.length +
          (LINE_SEPARATOR.length + repl.length))) + FOOTER.length := by
      simp only [List.length_append]
      try omega
    rw [hsplit, ← hlen, List.drop_left]
  rw [houtTakeS, houtDrop]

/-- The counterexample to C8 as stated: a file consisting of just the end
marker (`"### END AUTOFORWARD"`, no start marker). The first update
appends a marker block; the second update finds the appended start marker
but pairs it with the **first** footer occurrence — the pre-existing one,
*before* the header — and produces different bytes, so the update is not
idempotent for every file content. -/
theorem C8_counterexample :
    (update_hosts_bytes FOOTER [strBytes "a"]).isSome = true ∧
    update_hosts_bytes ((update_hosts_bytes FOOTER [strBytes "a"]).getD [])
        [strBytes "a"] ≠
      update_hosts_bytes FOOTER [strBytes "a"] := by
  decide

/-- C8 (amended): for every file content and every host list whose hosts
contain no `#` byte, provided the content's markers are well-formed — the
first footer occurrence is at or after the first header occurrence, or
neither marker occurs — applying the hosts-file update twice yields the
same bytes as applying it once. When the marker pair is present, all bytes
before the (first) start marker and after the (first) end marker are
preserved exactly; when the start marker is absent the original content is
preserved and the marker block is appended after one line separator. -/
theorem C8_hosts_idempotence :
    (∀ (input : List Nat) (hosts : List (List Nat)),
      (∀ h ∈ hosts, (35 : Nat) ∉ h) →
      ((∃ s e, findSub HEADER input = some s ∧ findSub FOOTER input = some e ∧
          s ≤ e) ∨
        (findSub HEADER input = none ∧ findSub FOOTER input = none)) →
      ∃ out, update_hosts_bytes input hosts = some out ∧
        update_hosts_bytes out hosts = some out) ∧
    (∀ (input repl : List Nat) (s e : Nat),
      findSub HEADER input = some s → findSub FOOTER input = some e →
      insert_or_replace_entries input repl =
        some (input.take s ++ HEADER ++ LINE_SEPARATOR ++ repl ++ FOOTER ++
          input.drop (e + FOOTER.length))) ∧
    (∀ input repl : List Nat,
      findSub HEADER input = none →
      insert_or_replace_entries input repl =
        some (input ++ LINE_SEPARATOR ++ HEADER ++ LINE_SEPARATOR ++ repl ++
          FOOTER ++ LINE_SEPARATOR)) := by
  refine ⟨?_, insert_entries_of_found, insert_entries_of_none⟩
  intro input hosts hh hcase
  have hrepl : ∀ b ∈ generate_host_entries hosts, b ≠ 35 :=
    generate_host_entries_no_hash hosts hh
  rcases hcase with ⟨s, e, hs, he, hse⟩ | ⟨hH0, hF0⟩
  · exact ⟨_, insert_entries_of_found input (generate_host_entries hosts) s e hs he,
      replace_fixpoint input (generate_host_entries hosts) s e hrepl hs he hse⟩
  · exact ⟨_, insert_entries_of_none input (generate_host_entries hosts) hH0,
      append_fixpoint input (generate_host_entries hosts) hrepl hH0 hF0⟩

/-- A hosts file with a well-formed marker pair. -/
def hostsFileEx : List Nat :=
  strBytes "127.0.0.1 localhost\n" ++ HEADER ++ LINE_SEPARATOR ++
    strBytes "127.0.0.1 old.example\n" ++ FOOTER ++ strBytes "\n127.0.0.1 tail\n"

/-- Witness for `C8_hosts_idempotence` at a concrete file and host list. -/
theorem C8_hosts_idempotence_witness :
    (∀ h ∈ [strBytes "new.example"], (35 : Nat) ∉ h) ∧
    (∃ out, update_hosts_bytes hostsFileEx [strBytes "new.example"] = some out ∧
      update_hosts_bytes out [strBytes "new.example"] = some out) :=
  ⟨by decide,
    C8_hosts_idempotence.1 hostsFileEx [strBytes "new.example"] (by decide)
      (Or.inl ⟨20, 64, by decide, by decide, by decide⟩)⟩

end Autoforward
